import Mathlib

/-
Verification development for the DocPilot retrieval-and-ranking backend
(src/backend/app).  The Python source is shallowly embedded: SQL queries over
the `chunks` and `documents` tables become list transformations, mutable dict
builds become recursive lookup functions that prefer the last occurrence (as
Python dict assignment overwrites), Python's stable `sorted`/`list.sort` is
modelled by `List.insertionSort` (any stable sort yields the same list for a
total preorder), and float arithmetic is modelled over `ℚ` with a
round-to-nearest function standing in for Python's `round(x, 3)`.
-/

namespace DocPilot

/-- A row of the `documents` table (db.py `ensure_documents_table`); `category`
abbreviates `JSON_EXTRACT(meta, '$.category')`. -/
structure DocRow where
  id : String
  org : Option String
  category : Option String
deriving DecidableEq, Repr

/-- A row of the `chunks` table (db.py `ensure_chunks_table`); the embedding
column is abstracted away: queries see it only through the cosine-distance and
fulltext-score oracles below. -/
structure Chunk where
  id : String
  docId : String
  ord : Nat
  text : String
  org : Option String
deriving DecidableEq, Repr

/-- A row as returned by the SQL candidate queries in db.py (`knn_search` and
the fulltext candidate query of `hybrid_fusion_search`); `dist` is `some` for
vector-search rows and `none` for fulltext rows. -/
structure SqlRow where
  id : String
  docId : String
  ord : Nat
  text : String
  dist : Option ℚ
deriving DecidableEq, Repr

/-- A fused result dict built at the end of `hybrid_fusion_search` (db.py
lines 677-690): `doc_id` is `None` when no base row exists, `ord` defaults to
0, `text` to the empty string and `dist` to the 0.0 sentinel. -/
structure FusedRow where
  id : String
  docId : Option String
  ord : Nat
  text : String
  dist : ℚ
deriving DecidableEq, Repr

/-- Strict tenant filter used by `knn_search` (db.py 393-440): the clause
`WHERE org_id = %s` is added only when an org id is supplied; SQL equality
against NULL is never true, so untagged rows are excluded. -/
def orgStrict (orgId : Option String) (rowOrg : Option String) : Bool :=
  match orgId with
  | none => true
  | some o => decide (rowOrg = some o)

/-- Null-safe tenant filter `(org_id <=> %s OR %s IS NULL)` used by the
fulltext candidate queries of `hybrid_fusion_search` (db.py 607-645). -/
def orgNullSafe (orgId : Option String) (rowOrg : Option String) : Bool :=
  match orgId with
  | none => true
  | some o => decide (rowOrg = some o)

/-- SQL join `JOIN documents d ON d.id = c.doc_id` for a chunk; `documents.id`
is a primary key, so lookup of the unique matching row models the join. -/
def docOf (docs : List DocRow) (c : Chunk) : Option DocRow :=
  docs.find? (fun d => decide (d.id = c.docId))

/-- `ORDER BY dist ASC` comparison oracle for vector candidates. -/
def distAsc (dq : Chunk → ℚ) (a b : Chunk) : Prop := dq a ≤ dq b

instance (dq : Chunk → ℚ) : DecidableRel (distAsc dq) := fun a b =>
  inferInstanceAs (Decidable (dq a ≤ dq b))

/-- Turn a chunk into the dict returned by `knn_search` (it selects
`id, doc_id, ord, text` and the computed cosine distance). -/
def knnRow (dq : Chunk → ℚ) (c : Chunk) : SqlRow :=
  { id := c.id, docId := c.docId, ord := c.ord, text := c.text, dist := some (dq c) }

/-- db.py `knn_search` (lines 393-443).  Without a category filter: scoped
chunks ordered by ascending distance, limited to `top_k`.  With a category
filter: the same scoped KNN over-fetched to `top_k * 5`, joined to `documents`
with the category predicate and (when scoped) `d.org_id = %s`, re-ordered and
limited to `top_k`.  `dq` is the `VEC_COSINE_DISTANCE(embedding, %s)` oracle
for the query vector. -/
def knn_search (docs : List DocRow) (chunks : List Chunk) (dq : Chunk → ℚ)
    (topK : Nat) (filterCategory : Option String) (orgId : Option String) :
    List SqlRow :=
  match filterCategory with
  | none =>
      (((chunks.filter (fun c => orgStrict orgId c.org)).insertionSort
        (distAsc dq)).take topK).map (knnRow dq)
  | some cat =>
      let inner := ((chunks.filter (fun c => orgStrict orgId c.org)).insertionSort
        (distAsc dq)).take (topK * 5)
      let joined := inner.filter (fun c =>
        match docOf docs c with
        | some d => decide (d.category = some cat) && orgStrict orgId d.org
        | none => false)
      ((joined.insertionSort (distAsc dq)).take topK).map (knnRow dq)

/-- `ORDER BY ft_score DESC` with SQL NULLs last (MySQL treats NULL as the
lowest value, so descending order puts NULL-scored rows at the end). -/
def ftDesc (a b : Chunk × Option ℚ) : Prop :=
  match a.2, b.2 with
  | some x, some y => y ≤ x
  | some _, none => True
  | none, some _ => False
  | none, none => True

instance : DecidableRel ftDesc := fun a b => by
  unfold ftDesc
  match a.2, b.2 with
  | some x, some y => exact inferInstanceAs (Decidable (y ≤ x))
  | some _, none => exact inferInstanceAs (Decidable True)
  | none, some _ => exact inferInstanceAs (Decidable False)
  | none, none => exact inferInstanceAs (Decidable True)

/-- The fulltext candidate query of db.py `hybrid_fusion_search` (lines
604-648).  `fts` is the relevance oracle: `MATCH(text) AGAINST (%s)` on the
primary path (NULL when the index yields no score) or the LIKE-derived
occurrence proxy on the fallback path; both paths apply the same null-safe
tenant filter, on the chunk row directly when no category filter is given and
on the joined document row otherwise.  Rows are ordered by descending score,
limited, and rows with a NULL score are then dropped in Python. -/
def ftCandidates (docs : List DocRow) (chunks : List Chunk)
    (fts : Chunk → Option ℚ) (filterCategory : Option String)
    (orgId : Option String) (ftLimit : Nat) : List SqlRow :=
  let base : List Chunk :=
    match filterCategory with
    | none => chunks.filter (fun c => orgNullSafe orgId c.org)
    | some cat => chunks.filter (fun c =>
        match docOf docs c with
        | some d => orgNullSafe orgId d.org && decide (d.category = some cat)
        | none => false)
  let scored : List (Chunk × Option ℚ) := base.map (fun c => (c, fts c))
  (((scored.insertionSort ftDesc).take ftLimit).filter (fun p => p.2.isSome)).map
    (fun p => { id := p.1.id, docId := p.1.docId, ord := p.1.ord,
                text := p.1.text, dist := none })

/-- Rank of an id in a candidate list, 1-based, preferring the LAST occurrence:
the rank dicts of `hybrid_fusion_search` (db.py 653-669) are filled in list
order with plain assignment, so a later duplicate overwrites an earlier one. -/
def rankOfLast : List SqlRow → String → Option Nat
  | [], _ => none
  | r :: rest, k =>
    match rankOfLast rest k with
    | some n => some (n + 1)
    | none => if r.id = k then some 1 else none

/-- Row lookup by id preferring the LAST occurrence, modelling the
`vec_row_map` and `ft_map` dicts of `hybrid_fusion_search`. -/
def rowLast : List SqlRow → String → Option SqlRow
  | [], _ => none
  | r :: rest, k =>
    match rowLast rest k with
    | some x => some x
    | none => if r.id = k then some r else none

/-- db.py `rrf_score` (lines 672-675): reciprocal rank fusion of the two rank
maps, a missing entry contributing 0. -/
def rrf_score (rrfK : Nat) (ftRows vecRows : List SqlRow) (rid : String) : ℚ :=
  (match rankOfLast ftRows rid with
   | some rk => 1 / ((rrfK : ℚ) + rk)
   | none => 0) +
  (match rankOfLast vecRows rid with
   | some rk => 1 / ((rrfK : ℚ) + rk)
   | none => 0)

/-- Descending-score comparison used by `sorted(all_ids, key=rrf_score,
reverse=True)`; CPython's sort is stable, and stable sorting with reversed
comparisons keeps tied ids in their original (set-enumeration) order. -/
def rrfDesc (rrfK : Nat) (ftRows vecRows : List SqlRow) (a b : String) : Prop :=
  rrf_score rrfK ftRows vecRows b ≤ rrf_score rrfK ftRows vecRows a

instance (rrfK : Nat) (ftRows vecRows : List SqlRow) :
    DecidableRel (rrfDesc rrfK ftRows vecRows) := fun a b =>
  inferInstanceAs
    (Decidable (rrf_score rrfK ftRows vecRows b ≤ rrf_score rrfK ftRows vecRows a))

/-- The `dist` attached to a fused row (db.py 667 and 688):
`float(r.get("dist") or 0.0)` from the vector row when one exists, otherwise
the 0.0 sentinel. -/
def fusedDist (vecRows : List SqlRow) (rid : String) : ℚ :=
  ((rowLast vecRows rid).map (fun r => r.dist.getD 0)).getD 0

/-- Building one fused result dict (db.py 681-689): base row data is preferred
from the vector row, then the fulltext row, then defaults. -/
def fusedRowOf (ftRows vecRows : List SqlRow) (rid : String) : FusedRow :=
  let base :=
    match rowLast vecRows rid with
    | some r => some r
    | none => rowLast ftRows rid
  { id := rid
    docId := base.map (fun r => r.docId)
    ord := (base.map (fun r => r.ord)).getD 0
    text := (base.map (fun r => r.text)).getD ""
    dist := fusedDist vecRows rid }

/-- Steps 3-5 of db.py `hybrid_fusion_search` (lines 652-690): RRF over the two
candidate lists.  `ids` is the enumeration of the Python set
`{*ft_rank.keys(), *vec_rank.keys()}`: its order is decided by the string-hash
based set iteration, not by the inputs, so the embedding takes it as an
explicit argument constrained by `validEnum` below. -/
def fuse (ftRows vecRows : List SqlRow) (rrfK topK : Nat) (ids : List String) :
    List FusedRow :=
  ((ids.insertionSort (rrfDesc rrfK ftRows vecRows)).take topK).map
    (fusedRowOf ftRows vecRows)

/-- The candidate-id lists of the two sources, in list order. -/
def candidateIds (ftRows vecRows : List SqlRow) : List String :=
  ((ftRows.map (fun r => r.id)) ++ (vecRows.map (fun r => r.id))).dedup

/-- `ids` is a legal enumeration of the candidate-id set: some permutation of
the distinct ids occurring in either candidate list. -/
def validEnum (ftRows vecRows : List SqlRow) (ids : List String) : Prop :=
  ids.Perm (candidateIds ftRows vecRows)

instance (ftRows vecRows : List SqlRow) (ids : List String) :
    Decidable (validEnum ftRows vecRows ids) :=
  inferInstanceAs (Decidable (List.Perm _ _))

/-- db.py `hybrid_fusion_search` end to end: fulltext candidates and vector
KNN candidates under the same scope, fused by RRF. -/
def hybrid_fusion_search (docs : List DocRow) (chunks : List Chunk)
    (dq : Chunk → ℚ) (fts : Chunk → Option ℚ) (filterCategory : Option String)
    (orgId : Option String) (ftLimit vecLimit rrfK topK : Nat)
    (ids : List String) : List FusedRow :=
  fuse (ftCandidates docs chunks fts filterCategory orgId ftLimit)
       (knn_search docs chunks dq vecLimit filterCategory orgId)
       rrfK topK ids

/-- A returned row id belongs to tenant `t` when some stored chunk carries that
id under org `t`. -/
def belongsToTenant (chunks : List Chunk) (t : String) (rid : String) : Prop :=
  ∃ c ∈ chunks, c.id = rid ∧ c.org = some t

/-- 1-based position of the FIRST occurrence of an id in a candidate list.
Modelled from the spec: section 4.3 defines `rank` as "the 1-based position in
that list"; used to compare the implementation's rank maps with the spec's
formula. -/
def pos1 : List SqlRow → String → Option Nat
  | [], _ => none
  | r :: rest, k =>
    if r.id = k then some 1 else (pos1 rest k).map (fun n => n + 1)

/-- Modelled from the spec: the section 4.3 ordering "sort all ids by
descending score; break ties first by ascending vector distance (closer
preferred), then by id for full determinism", with a fulltext-only row
reporting the 0.0 sentinel distance. -/
def specTieDesc (score dist : String → ℚ) (a b : String) : Prop :=
  score b < score a ∨
    (score b = score a ∧ (dist a < dist b ∨ (dist a = dist b ∧ a ≤ b)))

instance (score dist : String → ℚ) : DecidableRel (specTieDesc score dist) :=
  fun a b => by
    unfold specTieDesc
    exact inferInstanceAs (Decidable (_ ∨ _))

/-- Modelled from the spec: the section 4.3 fusion engine, identical to `fuse`
except that the output order is the fully deterministic one (descending score,
then ascending distance, then id) rather than the set-enumeration order. -/
def specFuse (ftRows vecRows : List SqlRow) (rrfK topK : Nat) : List FusedRow :=
  (((candidateIds ftRows vecRows).insertionSort
      (specTieDesc (rrf_score rrfK ftRows vecRows) (fusedDist vecRows))).take
    topK).map (fusedRowOf ftRows vecRows)

/-- A passage dict as built in main.py (`id, doc_id, ord, text, dist`, plus
the `rerank_score` key added by `rerank_passages`); `dist` and `rerank_score`
are optional dict entries. -/
structure Passage where
  id : String
  docId : String
  ord : Nat
  text : String
  dist : Option ℚ
  rerankScore : Option ℚ
deriving DecidableEq, Repr

/-- Python's `round(x, 3)` over the rational model: round `x * 1000` to the
nearest integer and divide back.  (CPython rounds float ties to even; the tie
rule is irrelevant to every property proved here, and spec and code share
whatever rule is chosen.) -/
def round3 (q : ℚ) : ℚ := ((round (q * 1000) : ℤ) : ℚ) / 1000

/-- answer.py `assess_evidence_sufficiency` (lines 26-49): insufficient when
the list is empty, the first three passages total fewer than 250 characters,
or the mean of the present distances exceeds 0.35. -/
def assess_evidence_sufficiency (passages : List Passage) : Bool :=
  if passages.isEmpty then true
  else if ((passages.take 3).map (fun p => p.text.length)).sum < 250 then true
  else
    let distances : List ℚ := passages.filterMap (fun p => p.dist)
    if distances.isEmpty then false
    else if distances.sum / (distances.length : ℚ) > 7 / 20 then true
    else false

/-- answer.py `estimate_confidence` (lines 51-60): 0.0 on the empty list, else
`round(0.6 * coverage + 0.4 * proximity, 3)` with coverage clamped from the
first five passages' characters over 1500 and proximity clamped from one minus
the average distance (a missing `dist` key counting as 1.0). -/
def estimate_confidence (passages : List Passage) : ℚ :=
  if passages.isEmpty then 0
  else
    let totalChars : ℚ := (((passages.take 5).map (fun p => p.text.length)).sum : ℕ)
    let coverage := max 0 (min 1 (totalChars / 1500))
    let dists : List ℚ := passages.map (fun p => p.dist.getD 1)
    let avgDist := dists.sum / (dists.length : ℚ)
    let proximity := max 0 (min 1 (1 - avgDist))
    round3 (6 / 10 * coverage + 4 / 10 * proximity)

/-- Modelled from the spec: section 4.5's confidence formula,
`round(0.6 * clamp(total_chars_of_first_5 / 1500, 0, 1)
 + 0.4 * clamp(1 - mean_distance, 0, 1), 3)` with confidence 0.0 for an empty
list; the mean is over the passages' distances. -/
def specConfidence (passages : List Passage) : ℚ :=
  if passages.isEmpty then 0
  else
    let totalChars : ℚ := (((passages.take 5).map (fun p => p.text.length)).sum : ℕ)
    let coverage := max 0 (min 1 (totalChars / 1500))
    let dists : List ℚ := passages.filterMap (fun p => p.dist)
    let meanDist := dists.sum / (dists.length : ℚ)
    let proximity := max 0 (min 1 (1 - meanDist))
    round3 (6 / 10 * coverage + 4 / 10 * proximity)

/-- The sort key ordering of main.py `rerank_passages` (line 439):
`key=lambda x: (-x.get("rerank_score", 0), x.get("dist", 0))`, i.e. rerank
score descending then original distance ascending, missing keys defaulting
to 0. -/
def rerankLe (p q : Passage) : Prop :=
  -(p.rerankScore.getD 0) < -(q.rerankScore.getD 0) ∨
    (-(p.rerankScore.getD 0) = -(q.rerankScore.getD 0) ∧
      p.dist.getD 0 ≤ q.dist.getD 0)

instance : DecidableRel rerankLe := fun p q => by
  unfold rerankLe
  exact inferInstanceAs (Decidable (_ ∨ _))

/-- Ordering solely by ascending original distance (the degraded ordering the
spec promises when reranking is disabled). -/
def distLe (p q : Passage) : Prop := p.dist.getD 0 ≤ q.dist.getD 0

instance : DecidableRel distLe := fun p q =>
  inferInstanceAs (Decidable (p.dist.getD 0 ≤ q.dist.getD 0))

/-- The score-assignment loop of main.py `rerank_passages` (lines 435-436):
passage `i` receives `scores[i]` when it exists and 0.0 otherwise. -/
def assignScores : List Passage → List ℚ → List Passage
  | [], _ => []
  | p :: ps, [] => { p with rerankScore := some 0 } :: assignScores ps []
  | p :: ps, s :: rest => { p with rerankScore := some s } :: assignScores ps rest

/-- main.py `rerank_passages` (lines 426-440): empty input returned as is;
otherwise scores are assigned from the scorer and the list is stably sorted by
(rerank score desc, distance asc).  `scorer` abstracts
embeddings.py `score_pairs`. -/
def rerank_passages (scorer : String → List String → List ℚ) (query : String)
    (passages : List Passage) : List Passage :=
  if passages.isEmpty then passages
  else
    (assignScores passages (scorer query (passages.map (fun p => p.text)))).insertionSort
      rerankLe

/-- embeddings.py `score_pairs` when the reranker is disabled, fails to load,
or a scoring call raises (lines 141-143 and 154-156): a neutral 0.0 per
passage, never an exception. -/
def score_pairs_disabled : String → List String → List ℚ :=
  fun _ texts => List.replicate texts.length 0

/-- A passage with the neutral rerank score attached. -/
def withZeroScore (p : Passage) : Passage := { p with rerankScore := some 0 }

/-- The dimension-adjustment step of embeddings.py `embed_texts` (lines 80-98)
applied to one output vector: an exact-dimension vector passes through, a
longer one is silently truncated, a shorter one is zero-padded. -/
def adjustRow (target : Nat) (row : List ℚ) : List ℚ :=
  if row.length = target then row
  else if target < row.length then row.take target
  else row ++ List.replicate (target - row.length) 0

/-- embeddings.py `embed_texts` dimension adjustment over a batch (the 2-D
branch, `v[:, :target]` / zero-column padding, applies `adjustRow` per row). -/
def embedAdjust (target : Nat) (vecs : List (List ℚ)) : List (List ℚ) :=
  vecs.map (adjustRow target)

/-- db.py `ensure_core_vector_schema` (lines 141-149): when the database
column dimension is known and differs from the configured dimension, a
RuntimeError with a migration hint is raised. -/
def ensure_core_vector_schema_dim (dbDim : Option Nat) (desired : Nat) :
    Except String Unit :=
  match dbDim with
  | some actual =>
      if actual = desired then Except.ok () else Except.error "EMBED_DIM mismatch"
  | none => Except.ok ()

/-- The payload of an ingestion spool record (main.py 623-630): the document
id, title, metadata, tenant and the full prepared chunk rows
`(chunk_id, doc_id, ord, text, vector_literal)`. -/
structure IngestPayload where
  docId : String
  title : String
  meta : Option String
  orgId : Option String
  rows : List (String × String × Nat × String × String)
deriving DecidableEq, Repr

/-- A durable spool record as written by `_spool_write` and read back by
`_spool_drain_loop`: a type tag plus the full retry payload.  `unknown` is a
record whose tag the drain loop does not recognise; `corrupt` is an unreadable
file (read back as falsy by `_spool_read`). -/
inductive SpoolRec where
  | ingest (payload : IngestPayload)
  | evalLog (row : String)
  | auditLog (row : String)
  | unknown (tag : String)
  | corrupt
deriving DecidableEq, Repr

/-- Whether the drain loop recognises the record's type tag
(main.py 139-157). -/
def knownType : SpoolRec → Bool
  | SpoolRec.ingest _ => true
  | SpoolRec.evalLog _ => true
  | SpoolRec.auditLog _ => true
  | _ => false

/-- main.py `_spool_write` (lines 96-104): append the record to the durable
spool; every exception while persisting is caught and only logged, so on an
unwritable spool the function still returns normally and the record is
dropped. -/
def spoolWrite (writable : Bool) (spool : List SpoolRec) (r : SpoolRec) :
    List SpoolRec :=
  if writable then spool ++ [r] else spool

/-- One cycle of main.py `_spool_drain_loop` (lines 128-163) over the pending
records.  `replayOk r` tells whether replaying `r` against primary storage
succeeds.  Returns (records left pending, replay attempts in order): an
unreadable or unrecognised record is deleted without a replay attempt, a
successfully replayed record is deleted, a failed replay leaves the record
untouched. -/
def drainCycle (replayOk : SpoolRec → Bool) : List SpoolRec →
    List SpoolRec × List SpoolRec
  | [] => ([], [])
  | r :: rest =>
    let res := drainCycle replayOk rest
    if knownType r then
      if replayOk r then (res.1, r :: res.2) else (r :: res.1, r :: res.2)
    else (res.1, res.2)

/-- The outcome a caller of a write endpoint observes. -/
inductive HandlerOutcome where
  | success
  | errorResponse
deriving DecidableEq, Repr

/-- Which primary-storage operations currently succeed, and whether the spool
directory is writable. -/
structure Storage where
  docOk : Bool
  chunkOk : Bool
  evalOk : Bool
  auditOk : Bool
  spoolWritable : Bool
deriving DecidableEq, Repr

/-- The write phase of main.py `ingest_text` (lines 599-634): `upsert_document`
runs OUTSIDE the spool try-block, so its failure propagates to the outer
handler and becomes a standardized error response with nothing spooled;
`upsert_chunks` runs inside it, so its failure spools an `ingest` record
carrying the full payload and the handler returns success. -/
def ingestRun (st : Storage) (p : IngestPayload) :
    HandlerOutcome × List SpoolRec :=
  if !st.docOk then (HandlerOutcome.errorResponse, [])
  else if st.chunkOk then (HandlerOutcome.success, [])
  else (HandlerOutcome.success, spoolWrite st.spoolWritable [] (SpoolRec.ingest p))

/-- The evaluation-log insert of main.py `answer` (lines 487-523): on failure
the full row is spooled as an `eval_log` record and the handler proceeds to a
successful response. -/
def answerEvalLogRun (st : Storage) (row : String) :
    HandlerOutcome × List SpoolRec :=
  if st.evalOk then (HandlerOutcome.success, [])
  else (HandlerOutcome.success, spoolWrite st.spoolWritable [] (SpoolRec.evalLog row))

/-- main.py `audit_event` (lines 321-335): the audit insert failure is caught
and only logged — no spool record is ever written for audit logs and the
caller always continues. -/
def auditEventRun (st : Storage) (_row : String) :
    HandlerOutcome × List SpoolRec :=
  if st.auditOk then (HandlerOutcome.success, [])
  else (HandlerOutcome.success, [])

/-- Two sort relations agreeing on the elements actually inserted produce the
same `orderedInsert`. -/
lemma orderedInsert_congr {α : Type} (r s : α → α → Prop) [DecidableRel r]
    [DecidableRel s] (x : α) :
    ∀ l : List α, (∀ b ∈ l, (r x b ↔ s x b)) →
      l.orderedInsert r x = l.orderedInsert s x
  | [], _ => rfl
  | b :: l, h => by
    simp only [List.orderedInsert]
    by_cases hb : r x b
    · rw [if_pos hb, if_pos ((h b (List.mem_cons_self b l)).1 hb)]
    · rw [if_neg hb, if_neg (fun hs => hb ((h b (List.mem_cons_self b l)).2 hs)),
        orderedInsert_congr r s x l (fun c hc => h c (List.mem_cons_of_mem b hc))]

/-- Two sort relations agreeing on all pairs of list elements produce the same
stable insertion sort. -/
lemma insertionSort_congr {α : Type} (r s : α → α → Prop) [DecidableRel r]
    [DecidableRel s] :
    ∀ l : List α, (∀ a ∈ l, ∀ b ∈ l, (r a b ↔ s a b)) →
      l.insertionSort r = l.insertionSort s
  | [], _ => rfl
  | a :: l, h => by
    simp only [List.insertionSort]
    rw [insertionSort_congr r s l
      (fun x hx y hy => h x (List.mem_cons_of_mem a hx) y (List.mem_cons_of_mem a hy))]
    exact orderedInsert_congr r s a (l.insertionSort s)
      (fun b hb => h a (List.mem_cons_self a l) b
        (List.mem_cons_of_mem a ((List.mem_insertionSort s).1 hb)))

/-- Inserting into a descending-by-key list puts the new element before exactly
the strictly smaller keys, so each key class keeps its relative order. -/
lemma filter_orderedInsert_key {α : Type} (r : α → α → Prop) [DecidableRel r]
    (key : α → ℚ) (hr : ∀ a b, r a b ↔ key b ≤ key a) (s : ℚ) (x : α) :
    ∀ l : List α,
      (List.orderedInsert r x l).filter (fun a => decide (key a = s)) =
        if key x = s then x :: l.filter (fun a => decide (key a = s))
        else l.filter (fun a => decide (key a = s))
  | [] => by
    by_cases hx : key x = s <;>
      simp [List.orderedInsert, List.filter, hx]
  | b :: l => by
    simp only [List.orderedInsert]
    by_cases hb : r x b
    · by_cases hx : key x = s <;>
        simp [List.filter_cons, if_pos hb, hx]
    · have hlt : key x < key b := lt_of_not_le (fun hle => hb ((hr x b).2 hle))
      rw [if_neg hb, List.filter_cons, List.filter_cons,
        filter_orderedInsert_key r key hr s x l]
      by_cases hx : key x = s
      · have hbne : ¬ key b = s := by
          rw [← hx]; exact ne_of_gt hlt
        simp [hx, hbne]
      · by_cases hbs : key b = s <;> simp [hx, hbs]

/-- Stability of the descending-by-key insertion sort: restricted to any one
key class, the sorted list is the input list. -/
lemma insertionSort_filter_key {α : Type} (r : α → α → Prop) [DecidableRel r]
    (key : α → ℚ) (hr : ∀ a b, r a b ↔ key b ≤ key a) (s : ℚ) :
    ∀ l : List α,
      (l.insertionSort r).filter (fun a => decide (key a = s)) =
        l.filter (fun a => decide (key a = s))
  | [] => rfl
  | a :: l => by
    simp only [List.insertionSort]
    rw [filter_orderedInsert_key r key hr s a (l.insertionSort r),
      insertionSort_filter_key r key hr s l, List.filter_cons]
    by_cases ha : key a = s <;> simp [ha]

/-- Two lists that are permutations of each other, both sorted by descending
key, with the key injective on their elements, are equal. -/
lemma eq_of_perm_of_sorted_key {α : Type} (key : α → ℚ) :
    ∀ {l₁ l₂ : List α}, l₁.Perm l₂ →
      l₁.Sorted (fun a b => key b ≤ key a) →
      l₂.Sorted (fun a b => key b ≤ key a) →
      (∀ a ∈ l₁, ∀ b ∈ l₁, key a = key b → a = b) → l₁ = l₂
  | [], l₂, hp, _, _, _ => hp.nil_eq
  | a :: t₁, [], hp, _, _, _ => by
    exact absurd hp.symm.nil_eq (by simp)
  | a :: t₁, b :: t₂, hp, hs₁, hs₂, hinj => by
    have hab : a = b := by
      by_contra hne
      have hbl : b ∈ a :: t₁ := hp.symm.subset (List.mem_cons_self b t₂)
      have hb₁ : b ∈ t₁ := by
        rcases List.mem_cons.1 hbl with h | h
        · exact absurd h.symm hne
        · exact h
      have hal : a ∈ b :: t₂ := hp.subset (List.mem_cons_self a t₁)
      have ha₂ : a ∈ t₂ := by
        rcases List.mem_cons.1 hal with h | h
        · exact absurd h hne
        · exact h
      have h₁ : key b ≤ key a := List.rel_of_sorted_cons hs₁ b hb₁
      have h₂ : key a ≤ key b := List.rel_of_sorted_cons hs₂ a ha₂
      exact hne (hinj a (List.mem_cons_self a t₁) b hbl (le_antisymm h₂ h₁))
    subst hab
    have ht : t₁ = t₂ :=
      eq_of_perm_of_sorted_key key hp.cons_inv hs₁.of_cons hs₂.of_cons
        (fun x hx y hy => hinj x (List.mem_cons_of_mem a hx) y (List.mem_cons_of_mem a hy))
    rw [ht]

lemma rankOfLast_isSome :
    ∀ (rows : List SqlRow) (k : String),
      (rankOfLast rows k).isSome = true ↔ k ∈ rows.map (fun r => r.id)
  | [], k => by simp [rankOfLast]
  | r :: rest, k => by
    simp only [rankOfLast, List.map_cons, List.mem_cons]
    rcases h : rankOfLast rest k with _ | n
    · by_cases hid : r.id = k
      · simp [hid]
      · have := rankOfLast_isSome rest k
        rw [h] at this
        simp only [Option.isSome_none, Bool.false_eq_true, false_iff] at this
        simp [hid, Ne.symm hid, this]
    · have := rankOfLast_isSome rest k
      rw [h] at this
      simp only [Option.isSome_some, true_iff] at this
      simp [this]

lemma rankOfLast_eq_pos1 :
    ∀ (rows : List SqlRow), (rows.map (fun r => r.id)).Nodup →
      ∀ k, rankOfLast rows k = pos1 rows k
  | [], _, k => rfl
  | r :: rest, hnd, k => by
    simp only [List.map_cons, List.nodup_cons] at hnd
    by_cases hid : r.id = k
    · have hnone : rankOfLast rest k = none := by
        rcases h : rankOfLast rest k with _ | n
        · rfl
        · have := (rankOfLast_isSome rest k).1 (by rw [h]; rfl)
          exact absurd (hid ▸ this) hnd.1
      simp [rankOfLast, pos1, hnone, hid]
    · have hrec := rankOfLast_eq_pos1 rest hnd.2 k
      simp only [rankOfLast, pos1, hid, if_false, hrec]
      rcases pos1 rest k with _ | n <;> simp

lemma rowLast_eq_some :
    ∀ (rows : List SqlRow) (k : String) (r : SqlRow),
      rowLast rows k = some r → r ∈ rows ∧ r.id = k
  | [], _, _, h => by simp [rowLast] at h
  | x :: rest, k, r, h => by
    simp only [rowLast] at h
    rcases hr : rowLast rest k with _ | y
    · rw [hr] at h
      by_cases hid : x.id = k
      · rw [if_pos hid] at h
        cases h
        exact ⟨List.mem_cons_self x rest, hid⟩
      · rw [if_neg hid] at h
        cases h
    · rw [hr] at h
      cases h
      have := rowLast_eq_some rest k r hr
      exact ⟨List.mem_cons_of_mem x this.1, this.2⟩

instance (rrfK : Nat) (ftRows vecRows : List SqlRow) :
    IsTotal String (rrfDesc rrfK ftRows vecRows) :=
  ⟨fun a b => le_total (rrf_score rrfK ftRows vecRows b) (rrf_score rrfK ftRows vecRows a)⟩

instance (rrfK : Nat) (ftRows vecRows : List SqlRow) :
    IsTrans String (rrfDesc rrfK ftRows vecRows) :=
  ⟨fun _ _ _ hab hbc => le_trans hbc hab⟩

instance : IsTotal Passage rerankLe := by
  constructor
  intro p q
  unfold rerankLe
  rcases lt_trichotomy (-(p.rerankScore.getD 0)) (-(q.rerankScore.getD 0)) with h | h | h
  · exact Or.inl (Or.inl h)
  · rcases le_total (p.dist.getD 0) (q.dist.getD 0) with hd | hd
    · exact Or.inl (Or.inr ⟨h, hd⟩)
    · exact Or.inr (Or.inr ⟨h.symm, hd⟩)
  · exact Or.inr (Or.inl h)

instance : IsTrans Passage rerankLe := by
  constructor
  intro a b c hab hbc
  unfold rerankLe at hab hbc ⊢
  rcases hab with hab | ⟨he₁, hd₁⟩
  · rcases hbc with hbc | ⟨he₂, _⟩
    · exact Or.inl (lt_trans hab hbc)
    · exact Or.inl (he₂ ▸ hab)
  · rcases hbc with hbc | ⟨he₂, hd₂⟩
    · exact Or.inl (he₁ ▸ hbc)
    · exact Or.inr ⟨he₁.trans he₂, hd₁.trans hd₂⟩

/-- Any row returned by `knn_search` with a tenant scope comes from a chunk of
that tenant (both query shapes filter the chunk table by `org_id = %s`). -/
lemma mem_knn_search {docs : List DocRow} {chunks : List Chunk} {dq : Chunk → ℚ}
    {topK : Nat} {cat orgId : Option String} {r : SqlRow}
    (h : r ∈ knn_search docs chunks dq topK cat orgId) :
    ∃ c ∈ chunks, r = knnRow dq c ∧ orgStrict orgId c.org = true := by
  rcases cat with _ | ct
  · simp only [knn_search] at h
    rcases List.mem_map.1 h with ⟨c, hc, hr⟩
    have hc' := (List.mem_insertionSort (distAsc dq)).1 (List.mem_of_mem_take hc)
    rcases List.mem_filter.1 hc' with ⟨hcm, horg⟩
    exact ⟨c, hcm, hr.symm, horg⟩
  · simp only [knn_search] at h
    rcases List.mem_map.1 h with ⟨c, hc, hr⟩
    have hc₁ := (List.mem_insertionSort (distAsc dq)).1 (List.mem_of_mem_take hc)
    have hc₂ := (List.mem_filter.1 hc₁).1
    have hc₃ := (List.mem_insertionSort (distAsc dq)).1 (List.mem_of_mem_take hc₂)
    rcases List.mem_filter.1 hc₃ with ⟨hcm, horg⟩
    exact ⟨c, hcm, hr.symm, horg⟩

/-- Any row returned by the fulltext candidate query comes from a stored chunk
with the same id that passed the tenant filter: directly on the chunk row
without a category filter, or on its joined document row with one. -/
lemma mem_ftCandidates {docs : List DocRow} {chunks : List Chunk}
    {fts : Chunk → Option ℚ} {cat orgId : Option String} {lim : Nat} {r : SqlRow}
    (h : r ∈ ftCandidates docs chunks fts cat orgId lim) :
    ∃ c ∈ chunks, r.id = c.id ∧
      (orgNullSafe orgId c.org = true ∨
        ∃ d, docOf docs c = some d ∧ orgNullSafe orgId d.org = true) := by
  rcases cat with _ | ct
  · simp only [ftCandidates] at h
    rcases List.mem_map.1 h with ⟨p, hp, hr⟩
    have hp₁ := List.mem_of_mem_filter hp
    have hp₂ := (List.mem_insertionSort ftDesc).1 (List.mem_of_mem_take hp₁)
    rcases List.mem_map.1 hp₂ with ⟨c, hc, hpc⟩
    rcases List.mem_filter.1 hc with ⟨hcm, horg⟩
    refine ⟨c, hcm, ?_, Or.inl horg⟩
    rw [← hr, ← hpc]
  · simp only [ftCandidates] at h
    rcases List.mem_map.1 h with ⟨p, hp, hr⟩
    have hp₁ := List.mem_of_mem_filter hp
    have hp₂ := (List.mem_insertionSort ftDesc).1 (List.mem_of_mem_take hp₁)
    rcases List.mem_map.1 hp₂ with ⟨c, hc, hpc⟩
    rcases List.mem_filter.1 hc with ⟨hcm, hpred⟩
    refine ⟨c, hcm, by rw [← hr, ← hpc], ?_⟩
    rcases hd : docOf docs c with _ | d
    · rw [hd] at hpred
      simp at hpred
    · rw [hd] at hpred
      simp only [Bool.and_eq_true] at hpred
      exact Or.inr ⟨d, rfl, hpred.1⟩

/-- Every fused row's id occurs in one of the two candidate lists. -/
lemma mem_fuse {ftRows vecRows : List SqlRow} {rrfK topK : Nat}
    {ids : List String} {r : FusedRow}
    (hids : validEnum ftRows vecRows ids)
    (h : r ∈ fuse ftRows vecRows rrfK topK ids) :
    r.id ∈ ftRows.map (fun x => x.id) ∨ r.id ∈ vecRows.map (fun x => x.id) := by
  rcases List.mem_map.1 h with ⟨rid, hrid, hr⟩
  have h₁ : rid ∈ ids :=
    (List.mem_insertionSort (rrfDesc rrfK ftRows vecRows)).1 (List.mem_of_mem_take hrid)
  have h₂ : rid ∈ candidateIds ftRows vecRows := hids.subset h₁
  have h₃ := List.mem_dedup.1 h₂
  rw [← hr]
  exact List.mem_append.1 h₃

/-- The modelled document join returns a member of the table matching the
chunk's `doc_id`. -/
lemma docOf_eq_some {docs : List DocRow} {c : Chunk} {d : DocRow}
    (h : docOf docs c = some d) : d ∈ docs ∧ d.id = c.docId := by
  unfold docOf at h
  have h₁ := List.mem_of_find?_eq_some h
  have h₂ := List.find?_some h
  exact ⟨h₁, of_decide_eq_true h₂⟩

/-- If some stored chunk with this id belongs to tenant `A`, and chunk ids are
unique (primary key), then the id does not belong to a different tenant `B`. -/
lemma not_belongs_of_chunk {chunks : List Chunk} {A B rid : String}
    (hAB : A ≠ B) (hnd : (chunks.map (fun c => c.id)).Nodup)
    {c : Chunk} (hc : c ∈ chunks) (hid : c.id = rid) (horg : c.org = some A) :
    ¬ belongsToTenant chunks B rid := by
  rintro ⟨c', hc', hid', horg'⟩
  have hcc : c = c' :=
    List.inj_on_of_nodup_map hnd hc hc' (by rw [hid, hid'])
  rw [← hcc, horg] at horg'
  exact hAB (Option.some.inj horg')

/-- C1: every retrieval scoped to tenant `A` — vector KNN search, the fulltext
candidate query, and the fused hybrid results — returns only rows whose chunk
belongs to `A`, hence zero rows of any other tenant `B`, for every distance
and relevance oracle, `top_k`, limits, fusion constant and category filter.
`hnd` is the `chunks.id` primary-key invariant; `hcons` is the ingestion
invariant that a chunk carries the same tenant as its document (ingest_text
writes both with the same `X-Org-Id`), which the fulltext query's
category branch relies on because it filters on the joined document row. -/
theorem tenant_isolation (docs : List DocRow) (chunks : List Chunk)
    (dq : Chunk → ℚ) (fts : Chunk → Option ℚ) (topK ftLim vecLim rrfK : Nat)
    (cat : Option String) (A B : String) (hAB : A ≠ B)
    (hnd : (chunks.map (fun c => c.id)).Nodup)
    (hcons : ∀ c ∈ chunks, ∀ d ∈ docs, d.id = c.docId → c.org = d.org) :
    (∀ r ∈ knn_search docs chunks dq topK cat (some A),
      ¬ belongsToTenant chunks B r.id) ∧
    (∀ r ∈ ftCandidates docs chunks fts cat (some A) ftLim,
      ¬ belongsToTenant chunks B r.id) ∧
    (∀ ids, validEnum (ftCandidates docs chunks fts cat (some A) ftLim)
        (knn_search docs chunks dq vecLim cat (some A)) ids →
      ∀ r ∈ hybrid_fusion_search docs chunks dq fts cat (some A)
          ftLim vecLim rrfK topK ids,
        ¬ belongsToTenant chunks B r.id) := by
  have hknn : ∀ (k : Nat) (r : SqlRow), r ∈ knn_search docs chunks dq k cat (some A) →
      ¬ belongsToTenant chunks B r.id := by
    intro k r hr
    rcases mem_knn_search hr with ⟨c, hc, hrc, horg⟩
    have horg' : c.org = some A := of_decide_eq_true horg
    exact not_belongs_of_chunk hAB hnd hc (by rw [hrc]; rfl) horg'
  have hft : ∀ r ∈ ftCandidates docs chunks fts cat (some A) ftLim,
      ¬ belongsToTenant chunks B r.id := by
    intro r hr
    rcases mem_ftCandidates hr with ⟨c, hc, hid, hcase⟩
    have horg : c.org = some A := by
      rcases hcase with horg | ⟨d, hd, horg⟩
      · exact of_decide_eq_true horg
      · rcases docOf_eq_some hd with ⟨hdm, hdid⟩
        rw [hcons c hc d hdm hdid]
        exact of_decide_eq_true horg
    exact not_belongs_of_chunk hAB hnd hc hid.symm horg
  refine ⟨fun r hr => hknn topK r hr, hft, ?_⟩
  intro ids hids r hr
  rcases mem_fuse hids hr with hmem | hmem
  · rcases List.mem_map.1 hmem with ⟨row, hrow, hrowid⟩
    have := hft row hrow
    rw [hrowid] at this
    exact this
  · rcases List.mem_map.1 hmem with ⟨row, hrow, hrowid⟩
    have := hknn vecLim row hrow
    rw [hrowid] at this
    exact this

/-- Concrete two-tenant store for exercising `tenant_isolation`. -/
def docsW : List DocRow :=
  [{ id := "dA", org := some "A", category := some "legal" },
   { id := "dB", org := some "B", category := some "legal" }]

/-- Concrete chunks: one per tenant. -/
def chunksW : List Chunk :=
  [{ id := "ca", docId := "dA", ord := 0, text := "liability cap", org := some "A" },
   { id := "cb", docId := "dB", ord := 0, text := "unrelated", org := some "B" }]

/-- Concrete distance oracle: tenant A's chunk is closest. -/
def dqW : Chunk → ℚ := fun c => if c.id = "ca" then 0 else 1

/-- Witness for C1: on the concrete two-tenant store, the row actually
returned by the scoped KNN search does not belong to tenant B. -/
theorem tenant_isolation_witness :
    ¬ belongsToTenant chunksW "B" (knnRow dqW (chunksW.get ⟨0, by decide⟩)).id :=
  (tenant_isolation docsW chunksW dqW (fun _ => some 1) 5 100 100 60 none "A" "B"
      (by decide) (by decide) (by decide)).1
    (knnRow dqW (chunksW.get ⟨0, by decide⟩)) (by decide)

/-- C2 (amended): for a legal enumeration of the candidate-id set, the fused
output is exactly the ids stably sorted by descending RRF score, truncated to
`top_k`; the output is sorted by descending fused score with the claimed
length; within any one score class the sort preserves the enumeration order
(Python set-iteration order), NOT the spec's distance/id tie-break; and under
the primary-key uniqueness of each candidate list the fused score of every id
is `1/(k + rank_ft) + 1/(k + rank_vec)` with 1-based positions and a missing
list contributing 0. -/
theorem rrf_fusion_amended (ftRows vecRows : List SqlRow) (rrfK topK : Nat)
    (ids : List String) (_hids : validEnum ftRows vecRows ids) :
    ((fuse ftRows vecRows rrfK topK ids).map (fun r => r.id) =
      (ids.insertionSort (rrfDesc rrfK ftRows vecRows)).take topK) ∧
    List.Sorted (rrfDesc rrfK ftRows vecRows)
      ((fuse ftRows vecRows rrfK topK ids).map (fun r => r.id)) ∧
    (fuse ftRows vecRows rrfK topK ids).length = min topK ids.length ∧
    (∀ s : ℚ,
      (ids.insertionSort (rrfDesc rrfK ftRows vecRows)).filter
          (fun x => decide (rrf_score rrfK ftRows vecRows x = s)) =
        ids.filter (fun x => decide (rrf_score rrfK ftRows vecRows x = s))) ∧
    ((ftRows.map (fun r => r.id)).Nodup → (vecRows.map (fun r => r.id)).Nodup →
      ∀ rid, rrf_score rrfK ftRows vecRows rid =
        (match pos1 ftRows rid with
         | some p => 1 / ((rrfK : ℚ) + p)
         | none => 0) +
        (match pos1 vecRows rid with
         | some p => 1 / ((rrfK : ℚ) + p)
         | none => 0)) := by
  have hmap : (fuse ftRows vecRows rrfK topK ids).map (fun r => r.id) =
      (ids.insertionSort (rrfDesc rrfK ftRows vecRows)).take topK := by
    unfold fuse
    rw [List.map_map]
    exact List.map_id _
  refine ⟨hmap, ?_, ?_, ?_, ?_⟩
  · rw [hmap]
    exact (List.sorted_insertionSort (rrfDesc rrfK ftRows vecRows) ids).sublist
      (List.take_sublist topK _)
  · unfold fuse
    rw [List.length_map, List.length_take, List.length_insertionSort]
  · intro s
    exact insertionSort_filter_key (rrfDesc rrfK ftRows vecRows)
      (rrf_score rrfK ftRows vecRows) (fun a b => Iff.rfl) s ids
  · intro hft hvec rid
    unfold rrf_score
    rw [rankOfLast_eq_pos1 ftRows hft rid, rankOfLast_eq_pos1 vecRows hvec rid]

/-- Fulltext candidate list for the tie-break counterexample: id `b` ranked
first by fulltext only. -/
def ftRowsCx : List SqlRow :=
  [{ id := "b", docId := "d1", ord := 0, text := "tb", dist := none }]

/-- Vector candidate list for the tie-break counterexample: id `a` ranked
first by vector search only, at distance 1/2. -/
def vecRowsCx : List SqlRow :=
  [{ id := "a", docId := "d2", ord := 0, text := "ta", dist := some (1 / 2) }]

/-- Both counterexample ids tie at fused score `1/61`: `a` is ranked first by
the vector list only, `b` first by the fulltext list only. -/
lemma score_cx_a : rrf_score 60 ftRowsCx vecRowsCx "a" = 1 / 61 := by
  rw [rrf_score, (by decide : rankOfLast ftRowsCx "a" = none),
    (by decide : rankOfLast vecRowsCx "a" = some 1)]
  push_cast
  norm_num

/-- The fulltext-only id's fused score. -/
lemma score_cx_b : rrf_score 60 ftRowsCx vecRowsCx "b" = 1 / 61 := by
  rw [rrf_score, (by decide : rankOfLast ftRowsCx "b" = some 1),
    (by decide : rankOfLast vecRowsCx "b" = none)]
  push_cast
  norm_num

/-- With tied scores the descending stable sort leaves the enumeration
`["a", "b"]` unchanged. -/
lemma sort_cx_ab :
    ["a", "b"].insertionSort (rrfDesc 60 ftRowsCx vecRowsCx) = ["a", "b"] := by
  apply List.Sorted.insertionSort_eq
  rw [List.sorted_cons]
  refine ⟨?_, List.sorted_singleton _⟩
  intro b hb
  rw [List.mem_singleton] at hb
  subst hb
  unfold rrfDesc
  rw [score_cx_a, score_cx_b]

/-- With tied scores the descending stable sort leaves the enumeration
`["b", "a"]` unchanged. -/
lemma sort_cx_ba :
    ["b", "a"].insertionSort (rrfDesc 60 ftRowsCx vecRowsCx) = ["b", "a"] := by
  apply List.Sorted.insertionSort_eq
  rw [List.sorted_cons]
  refine ⟨?_, List.sorted_singleton _⟩
  intro b hb
  rw [List.mem_singleton] at hb
  subst hb
  unfold rrfDesc
  rw [score_cx_a, score_cx_b]

/-- The spec ordering puts `b` first: equal scores, but `b`'s reported
distance is the 0.0 sentinel while `a`'s is 1/2. -/
lemma sort_cx_spec :
    ["b", "a"].insertionSort
        (specTieDesc (rrf_score 60 ftRowsCx vecRowsCx) (fusedDist vecRowsCx)) =
      ["b", "a"] := by
  apply List.Sorted.insertionSort_eq
  rw [List.sorted_cons]
  refine ⟨?_, List.sorted_singleton _⟩
  intro b hb
  rw [List.mem_singleton] at hb
  subst hb
  unfold specTieDesc
  refine Or.inr ⟨score_cx_a.trans score_cx_b.symm, Or.inl ?_⟩
  have h₁ : fusedDist vecRowsCx "b" = 0 := by
    simp [fusedDist, rowLast, vecRowsCx]
  have h₂ : fusedDist vecRowsCx "a" = 1 / 2 := by
    simp [fusedDist, rowLast, vecRowsCx]
  rw [h₁, h₂]
  norm_num

/-- Counterexample for C2 as stated: both ids tie at RRF score `1/61`; the
spec's tie-break (ascending vector distance: `b` reports the 0.0 sentinel,
`a` reports 1/2) would return `b` first, but with the legal set enumeration
`["a", "b"]` the code returns `a` first — ties follow the enumeration order,
not the claimed distance/id tie-break. -/
theorem rrf_fusion_tiebreak_cx :
    validEnum ftRowsCx vecRowsCx ["a", "b"] ∧
    rrf_score 60 ftRowsCx vecRowsCx "a" = rrf_score 60 ftRowsCx vecRowsCx "b" ∧
    (fuse ftRowsCx vecRowsCx 60 10 ["a", "b"]).map (fun r => r.id) = ["a", "b"] ∧
    (specFuse ftRowsCx vecRowsCx 60 10).map (fun r => r.id) = ["b", "a"] ∧
    fuse ftRowsCx vecRowsCx 60 10 ["a", "b"] ≠ specFuse ftRowsCx vecRowsCx 60 10 := by
  have hcode : (fuse ftRowsCx vecRowsCx 60 10 ["a", "b"]).map (fun r => r.id) =
      ["a", "b"] := by
    unfold fuse
    rw [sort_cx_ab]
    rfl
  have hspec : (specFuse ftRowsCx vecRowsCx 60 10).map (fun r => r.id) =
      ["b", "a"] := by
    unfold specFuse
    rw [(by decide : candidateIds ftRowsCx vecRowsCx = ["b", "a"]), sort_cx_spec]
    rfl
  refine ⟨by decide, score_cx_a.trans score_cx_b.symm, hcode, hspec, ?_⟩
  intro h
  have := congrArg (List.map (fun r => r.id)) h
  rw [hcode, hspec] at this
  exact absurd this (by decide)

/-- Witness for C2 (amended) at the concrete candidate lists: the fused output
ids are the stably descending-sorted enumeration truncated to `top_k`. -/
theorem rrf_fusion_amended_witness :
    (fuse ftRowsCx vecRowsCx 60 10 ["a", "b"]).map (fun r => r.id) =
      (["a", "b"].insertionSort (rrfDesc 60 ftRowsCx vecRowsCx)).take 10 :=
  (rrf_fusion_amended ftRowsCx vecRowsCx 60 10 ["a", "b"] (by decide)).1

/-- C8 (amended): for a fixed enumeration the fusion is a pure function of its
inputs, and whenever no two candidate ids tie on fused score the output is
independent of the enumeration order of the candidate-id set (the residual
run-to-run nondeterminism lives exactly in tied scores, as the counterexample
shows). -/
theorem rrf_deterministic_amended (ftRows vecRows : List SqlRow)
    (rrfK topK : Nat) (ids₁ ids₂ : List String)
    (h₁ : validEnum ftRows vecRows ids₁) (h₂ : validEnum ftRows vecRows ids₂)
    (hinj : ∀ a ∈ ids₁, ∀ b ∈ ids₁,
      rrf_score rrfK ftRows vecRows a = rrf_score rrfK ftRows vecRows b → a = b) :
    fuse ftRows vecRows rrfK topK ids₁ = fuse ftRows vecRows rrfK topK ids₂ := by
  have hperm : (ids₁.insertionSort (rrfDesc rrfK ftRows vecRows)).Perm
      (ids₂.insertionSort (rrfDesc rrfK ftRows vecRows)) :=
    ((List.perm_insertionSort _ ids₁).trans (h₁.trans h₂.symm)).trans
      (List.perm_insertionSort _ ids₂).symm
  have hs₁ := List.sorted_insertionSort (rrfDesc rrfK ftRows vecRows) ids₁
  have hs₂ := List.sorted_insertionSort (rrfDesc rrfK ftRows vecRows) ids₂
  have heq : ids₁.insertionSort (rrfDesc rrfK ftRows vecRows) =
      ids₂.insertionSort (rrfDesc rrfK ftRows vecRows) := by
    refine eq_of_perm_of_sorted_key (rrf_score rrfK ftRows vecRows) hperm
      (hs₁.imp (fun h => h)) (hs₂.imp (fun h => h)) ?_
    intro a ha b hb
    exact hinj a ((List.perm_insertionSort _ ids₁).subset ha)
      b ((List.perm_insertionSort _ ids₁).subset hb)
  unfold fuse
  rw [heq]

/-- Counterexample for C8 as stated: identical candidate lists, `k` and
`top_k`, but the two legal enumerations of the tied candidate-id set (the
order of a Python set over strings varies with the process hash seed) yield
different output sequences. -/
theorem rrf_enum_order_cx :
    validEnum ftRowsCx vecRowsCx ["a", "b"] ∧
    validEnum ftRowsCx vecRowsCx ["b", "a"] ∧
    fuse ftRowsCx vecRowsCx 60 10 ["a", "b"] ≠
      fuse ftRowsCx vecRowsCx 60 10 ["b", "a"] := by
  have h₁ : (fuse ftRowsCx vecRowsCx 60 10 ["a", "b"]).map (fun r => r.id) =
      ["a", "b"] := by
    unfold fuse
    rw [sort_cx_ab]
    rfl
  have h₂ : (fuse ftRowsCx vecRowsCx 60 10 ["b", "a"]).map (fun r => r.id) =
      ["b", "a"] := by
    unfold fuse
    rw [sort_cx_ba]
    rfl
  refine ⟨by decide, by decide, ?_⟩
  intro h
  have := congrArg (List.map (fun r => r.id)) h
  rw [h₁, h₂] at this
  exact absurd this (by decide)

/-- Tie-free fulltext candidates for the C8 witness. -/
def ftRowsW : List SqlRow :=
  [{ id := "a", docId := "d1", ord := 0, text := "ta", dist := none }]

/-- Tie-free vector candidates for the C8 witness: `a` scores `1/61 + 1/61`,
`b` scores `1/62`. -/
def vecRowsW : List SqlRow :=
  [{ id := "a", docId := "d1", ord := 0, text := "ta", dist := some (1 / 10) },
   { id := "b", docId := "d2", ord := 1, text := "tb", dist := some (2 / 10) }]

/-- Witness for C8 (amended): with distinct fused scores the two enumeration
orders give the same fused output. -/
theorem rrf_deterministic_amended_witness :
    fuse ftRowsW vecRowsW 60 10 ["a", "b"] = fuse ftRowsW vecRowsW 60 10 ["b", "a"] := by
  have hwa : rrf_score 60 ftRowsW vecRowsW "a" = 2 / 61 := by
    rw [rrf_score, (by decide : rankOfLast ftRowsW "a" = some 1),
      (by decide : rankOfLast vecRowsW "a" = some 1)]
    push_cast
    norm_num
  have hwb : rrf_score 60 ftRowsW vecRowsW "b" = 1 / 62 := by
    rw [rrf_score, (by decide : rankOfLast ftRowsW "b" = none),
      (by decide : rankOfLast vecRowsW "b" = some 2)]
    push_cast
    norm_num
  refine rrf_deterministic_amended ftRowsW vecRowsW 60 10 ["a", "b"] ["b", "a"]
    (by decide) (by decide) ?_
  intro a ha b hb heq
  fin_cases ha <;> fin_cases hb
  · rfl
  · exfalso
    rw [hwa, hwb] at heq
    norm_num at heq
  · exfalso
    rw [hwb, hwa] at heq
    norm_num at heq
  · rfl

/-- When every passage carries a distance, the code's defaulted map over
distances coincides with the spec's list of distances. -/
lemma map_getD_eq_filterMap :
    ∀ ps : List Passage, (∀ p ∈ ps, (p.dist).isSome = true) →
      ps.map (fun p => p.dist.getD 1) = ps.filterMap (fun p => p.dist)
  | [], _ => rfl
  | p :: ps, h => by
    rcases Option.isSome_iff_exists.1 (h p (List.mem_cons_self p ps)) with ⟨v, hv⟩
    simp only [List.map_cons, List.filterMap_cons, hv, Option.getD_some]
    rw [map_getD_eq_filterMap ps (fun q hq => h q (List.mem_cons_of_mem p hq))]

/-- Rounding to three decimals keeps a value of the unit interval inside it. -/
lemma round3_bounds {q : ℚ} (h0 : 0 ≤ q) (h1 : q ≤ 1) :
    0 ≤ round3 q ∧ round3 q ≤ 1 := by
  unfold round3
  constructor
  · apply div_nonneg _ (by norm_num)
    have hz : (0 : ℤ) ≤ round (q * 1000) := by
      rw [round_eq]
      apply Int.floor_nonneg.2
      nlinarith
    exact_mod_cast hz
  · rw [div_le_one (by norm_num)]
    have hub : round (q * 1000) ≤ 1000 := by
      rw [round_eq]
      have hlt : (⌊q * 1000 + 1 / 2⌋ : ℤ) < 1001 := by
        apply Int.floor_lt.2
        push_cast
        nlinarith
      omega
    exact_mod_cast hub

/-- The weighted sum of two clamped terms stays in the unit interval after
rounding. -/
lemma conf_core_bounds (a b : ℚ) :
    0 ≤ round3 (6 / 10 * max 0 (min 1 a) + 4 / 10 * max 0 (min 1 b)) ∧
      round3 (6 / 10 * max 0 (min 1 a) + 4 / 10 * max 0 (min 1 b)) ≤ 1 := by
  have hc0 : (0 : ℚ) ≤ max 0 (min 1 a) := le_max_left 0 _
  have hc1 : max 0 (min 1 a) ≤ 1 := max_le (by norm_num) (min_le_left 1 a)
  have hp0 : (0 : ℚ) ≤ max 0 (min 1 b) := le_max_left 0 _
  have hp1 : max 0 (min 1 b) ≤ 1 := max_le (by norm_num) (min_le_left 1 b)
  exact round3_bounds (by nlinarith) (by nlinarith)

/-- C3: for passage lists carrying distances the implemented confidence equals
the spec formula `round(0.6 * clamp(chars_of_first_5 / 1500, 0, 1)
+ 0.4 * clamp(1 - mean_distance, 0, 1), 3)`; for every passage list the
confidence lies in `[0, 1]`; and the empty list scores exactly 0. -/
theorem confidence_ok : ∀ ps : List Passage,
    ((∀ p ∈ ps, (p.dist).isSome = true) →
      estimate_confidence ps = specConfidence ps) ∧
    (0 ≤ estimate_confidence ps ∧ estimate_confidence ps ≤ 1) ∧
    estimate_confidence ([] : List Passage) = 0 := by
  intro ps
  refine ⟨?_, ?_, rfl⟩
  · intro h
    by_cases hE : ps.isEmpty = true
    · simp [estimate_confidence, specConfidence, hE]
    · simp only [estimate_confidence, specConfidence, if_neg hE]
      rw [map_getD_eq_filterMap ps h]
  · by_cases hE : ps.isEmpty = true
    · simp [estimate_confidence, hE]
    · simp only [estimate_confidence, if_neg hE]
      exact conf_core_bounds _ _

/-- Witness passage of 83 characters at distance 1/10. -/
def pW83 : Passage :=
  { id := "p1", docId := "d", ord := 0, text := String.mk (List.replicate 83 'a'),
    dist := some (1 / 10), rerankScore := none }

/-- Witness passage of 84 characters at distance 1/10. -/
def pW84 : Passage :=
  { id := "p2", docId := "d", ord := 1, text := String.mk (List.replicate 84 'a'),
    dist := some (1 / 10), rerankScore := none }

/-- Witness for C3: on a concrete three-passage list with distances present,
the implemented confidence equals the spec formula. -/
theorem confidence_ok_witness :
    estimate_confidence [pW84, pW83, pW83] = specConfidence [pW84, pW83, pW83] :=
  (confidence_ok [pW84, pW83, pW83]).1 (by decide)

/-- C4: for passage lists carrying distances, `insufficient` is true exactly
when the list is empty, the first three passages total fewer than 250
characters, or the mean distance exceeds 0.35; in particular any three
passages totaling 249 characters are insufficient, and three passages
totaling exactly 250 characters with mean distance at most 0.35 are
sufficient. -/
theorem sufficiency_ok : ∀ ps : List Passage,
    ((∀ p ∈ ps, (p.dist).isSome = true) →
      (assess_evidence_sufficiency ps = true ↔
        ps = [] ∨ ((ps.take 3).map (fun p => p.text.length)).sum < 250 ∨
          (ps.filterMap (fun p => p.dist)).sum /
              ((ps.filterMap (fun p => p.dist)).length : ℚ) > 7 / 20)) ∧
    (ps.length = 3 → (ps.map (fun p => p.text.length)).sum = 249 →
      assess_evidence_sufficiency ps = true) ∧
    (ps.length = 3 → (ps.map (fun p => p.text.length)).sum = 250 →
      (ps.filterMap (fun p => p.dist)).sum /
          ((ps.filterMap (fun p => p.dist)).length : ℚ) ≤ 7 / 20 →
      assess_evidence_sufficiency ps = false) := by
  intro ps
  have htake : ps.length = 3 → ps.take 3 = ps := fun h =>
    List.take_of_length_le (by rw [h])
  have hEne : ∀ h3 : ps.length = 3, ¬ ps.isEmpty = true := by
    intro h3 h
    rw [List.isEmpty_iff] at h
    rw [h] at h3
    exact absurd h3 (by decide)
  refine ⟨?_, ?_, ?_⟩
  · intro h
    by_cases hE : ps.isEmpty = true
    · rw [List.isEmpty_iff] at hE
      subst hE
      simp [assess_evidence_sufficiency]
    · have hne : ¬ ps = [] := by
        rw [← List.isEmpty_iff]
        exact hE
      have hdsne : ¬ (ps.filterMap (fun p => p.dist)).isEmpty = true := by
        rcases ps with _ | ⟨p, rest⟩
        · exact absurd rfl hne
        · rcases Option.isSome_iff_exists.1
            (h p (List.mem_cons_self p rest)) with ⟨v, hv⟩
          simp [List.filterMap_cons, hv]
      by_cases hlen : ((ps.take 3).map (fun p => p.text.length)).sum < 250
      · simp only [assess_evidence_sufficiency, if_neg hE, if_pos hlen]
        exact iff_of_true trivial (Or.inr (Or.inl hlen))
      · simp only [assess_evidence_sufficiency, if_neg hE, if_neg hlen,
          if_neg hdsne]
        by_cases hm : (ps.filterMap (fun p => p.dist)).sum /
            ((ps.filterMap (fun p => p.dist)).length : ℚ) > 7 / 20
        · simp only [if_pos hm]
          exact iff_of_true trivial (Or.inr (Or.inr hm))
        · simp only [if_neg hm]
          refine iff_of_false (by simp) ?_
          rintro (hx | hx | hx)
          · exact hne hx
          · exact hlen hx
          · exact hm hx
  · intro h3 hsum
    have hlt : ((ps.take 3).map (fun p => p.text.length)).sum < 250 := by
      rw [htake h3, hsum]
      norm_num
    simp only [assess_evidence_sufficiency, if_neg (hEne h3), if_pos hlt]
  · intro h3 hsum hmean
    have hnlt : ¬ ((ps.take 3).map (fun p => p.text.length)).sum < 250 := by
      rw [htake h3, hsum]
      norm_num
    simp only [assess_evidence_sufficiency, if_neg (hEne h3), if_neg hnlt]
    by_cases hds : (ps.filterMap (fun p => p.dist)).isEmpty = true
    · simp only [if_pos hds]
    · simp only [if_neg hds, if_neg (not_lt.2 hmean)]

/-- Witness for C4: three passages of 83 characters each (249 total) are
insufficient; replacing one with an 84-character passage (250 total) at mean
distance 1/10 makes the evidence sufficient. -/
theorem sufficiency_ok_witness :
    assess_evidence_sufficiency [pW83, pW83, pW83] = true ∧
    assess_evidence_sufficiency [pW84, pW83, pW83] = false := by
  constructor
  · exact (sufficiency_ok [pW83, pW83, pW83]).2.1 (by decide) (by decide)
  · refine (sufficiency_ok [pW84, pW83, pW83]).2.2 (by decide) (by decide) ?_
    have hfm : ([pW84, pW83, pW83].filterMap (fun p => p.dist)) =
        [1 / 10, 1 / 10, 1 / 10] := by
      simp [pW83, pW84]
    rw [hfm]
    norm_num

/-- Assigning the disabled scorer's zero scores sets every passage's
`rerank_score` to 0. -/
lemma assignScores_replicate :
    ∀ ps : List Passage,
      assignScores ps (List.replicate ps.length (0 : ℚ)) = ps.map withZeroScore
  | [] => rfl
  | p :: ps => by
    simp only [List.length_cons, List.replicate_succ, assignScores, List.map_cons]
    rw [assignScores_replicate ps]
    rfl

/-- With the disabled scorer, reranking is the stable sort of the
zero-score-assigned input. -/
lemma rerank_disabled_eq (q : String) (ps : List Passage) :
    rerank_passages score_pairs_disabled q ps =
      (ps.map withZeroScore).insertionSort rerankLe := by
  by_cases hE : ps.isEmpty = true
  · rw [List.isEmpty_iff] at hE
    subst hE
    rfl
  · simp only [rerank_passages, if_neg hE, score_pairs_disabled]
    rw [List.length_map, assignScores_replicate]

/-- A passage already carrying the neutral score is unchanged by assigning
it again. -/
lemma withZeroScore_eq_self {p : Passage} (h : p.rerankScore = some 0) :
    withZeroScore p = p := by
  rcases p with ⟨i, d, o, t, ds, rs⟩
  have h' : rs = some 0 := h
  simp only [withZeroScore]
  rw [h']

/-- On zero-scored passages the rerank ordering degenerates to the distance
ordering. -/
lemma rerankLe_iff_distLe {p q : Passage} (hp : p.rerankScore = some 0)
    (hq : q.rerankScore = some 0) : rerankLe p q ↔ distLe p q := by
  unfold rerankLe distLe
  rw [hp, hq]
  simp

/-- C7: with the reranking model disabled or unavailable, every passage
receives the neutral score 0.0, reranking is idempotent, and the result is the
input (with its neutral scores attached) stably sorted solely by ascending
original distance. -/
theorem rerank_disabled_ok : ∀ (q : String) (ps : List Passage),
    (∀ p ∈ rerank_passages score_pairs_disabled q ps, p.rerankScore = some 0) ∧
    rerank_passages score_pairs_disabled q
        (rerank_passages score_pairs_disabled q ps) =
      rerank_passages score_pairs_disabled q ps ∧
    rerank_passages score_pairs_disabled q ps =
      (ps.map withZeroScore).insertionSort distLe := by
  intro q ps
  have hmem : ∀ p ∈ rerank_passages score_pairs_disabled q ps,
      p.rerankScore = some 0 := by
    rw [rerank_disabled_eq q ps]
    intro p hp
    rcases List.mem_map.1 ((List.mem_insertionSort rerankLe).1 hp) with ⟨x, _, hx⟩
    rw [← hx]
    rfl
  refine ⟨hmem, ?_, ?_⟩
  · rw [rerank_disabled_eq q (rerank_passages score_pairs_disabled q ps)]
    have hfix : (rerank_passages score_pairs_disabled q ps).map withZeroScore =
        rerank_passages score_pairs_disabled q ps := by
      rw [List.map_congr_left (fun p hp => withZeroScore_eq_self (hmem p hp))]
      exact List.map_id _
    rw [hfix, rerank_disabled_eq q ps]
    exact List.Sorted.insertionSort_eq
      (List.sorted_insertionSort rerankLe (ps.map withZeroScore))
  · rw [rerank_disabled_eq q ps]
    refine insertionSort_congr rerankLe distLe (ps.map withZeroScore) ?_
    intro a ha b hb
    rcases List.mem_map.1 ha with ⟨x, _, hx⟩
    rcases List.mem_map.1 hb with ⟨y, _, hy⟩
    exact rerankLe_iff_distLe (by rw [← hx]; rfl) (by rw [← hy]; rfl)

/-- A concrete ingestion payload carrying one prepared chunk row. -/
def payloadCx : IngestPayload :=
  { docId := "doc1", title := "T", meta := none, orgId := some "demo",
    rows := [("c1", "doc1", 0, "text", "[0.1]")] }

/-- Storage where only the document upsert fails. -/
def stDocFail : Storage :=
  { docOk := false, chunkOk := true, evalOk := true, auditOk := true,
    spoolWritable := true }

/-- Storage where only the audit-log insert fails. -/
def stAuditFail : Storage :=
  { docOk := true, chunkOk := true, evalOk := true, auditOk := false,
    spoolWritable := true }

/-- Storage where only the chunk upsert fails, spool writable. -/
def stChunkFail : Storage :=
  { docOk := true, chunkOk := false, evalOk := true, auditOk := true,
    spoolWritable := true }

/-- Storage where the chunk upsert fails AND the spool directory is
unwritable. -/
def stChunkFailNoSpool : Storage :=
  { docOk := true, chunkOk := false, evalOk := true, auditOk := true,
    spoolWritable := false }

/-- Concrete passage at integral distance 2 for the reranking witness. -/
def pD2 : Passage :=
  { id := "r1", docId := "d", ord := 0, text := "far", dist := some 2,
    rerankScore := none }

/-- Concrete passage at integral distance 1 for the reranking witness. -/
def pD1 : Passage :=
  { id := "r2", docId := "d", ord := 1, text := "near", dist := some 1,
    rerankScore := none }

/-- Witness for C7: in the concrete disabled rerank of two passages, the
closer passage is in the output and carries the neutral score. -/
theorem rerank_disabled_ok_witness :
    (withZeroScore pD1).rerankScore = some 0 :=
  (rerank_disabled_ok "q" [pD2, pD1]).1 (withZeroScore pD1) (by decide)

/-- Counterexample for C5 as stated: a failing `upsert_document` during
ingestion propagates to the outer handler as an error response with nothing
spooled, and a failing audit-log insert is only logged — no spool record is
written — while the caller continues. -/
theorem spool_contract_cx :
    (ingestRun stDocFail payloadCx).1 ≠ HandlerOutcome.success ∧
    (ingestRun stDocFail payloadCx).2 = [] ∧
    (auditEventRun stAuditFail "audit-row").1 = HandlerOutcome.success ∧
    (auditEventRun stAuditFail "audit-row").2 = [] := by
  refine ⟨by decide, by decide, by decide, by decide⟩

/-- C5 (amended): a chunk-upsert failure during ingestion and an
evaluation-log insert failure are each serialized to a spool record tagged
with its type and carrying the full retry payload, and the caller returns
success; but a document-upsert failure surfaces as an error response without
spooling, and an audit-log insert failure is only logged, never spooled, the
caller continuing regardless. -/
theorem spool_contract_amended (st : Storage) (p : IngestPayload) (row : String) :
    (st.docOk = true → st.chunkOk = false → st.spoolWritable = true →
      ingestRun st p = (HandlerOutcome.success, [SpoolRec.ingest p])) ∧
    (st.evalOk = false → st.spoolWritable = true →
      answerEvalLogRun st row = (HandlerOutcome.success, [SpoolRec.evalLog row])) ∧
    (st.docOk = false → ingestRun st p = (HandlerOutcome.errorResponse, [])) ∧
    auditEventRun st row = (HandlerOutcome.success, []) := by
  refine ⟨?_, ?_, ?_, ?_⟩
  · intro hd hc hw
    simp [ingestRun, spoolWrite, hd, hc, hw]
  · intro he hw
    simp [answerEvalLogRun, spoolWrite, he, hw]
  · intro hd
    simp [ingestRun, hd]
  · unfold auditEventRun
    split <;> rfl

/-- Witness for C5 (amended): a concrete ingestion whose chunk upsert fails
spools the full payload and reports success. -/
theorem spool_contract_amended_witness :
    ingestRun stChunkFail payloadCx =
      (HandlerOutcome.success, [SpoolRec.ingest payloadCx]) :=
  (spool_contract_amended stChunkFail payloadCx "r").1 rfl rfl rfl

/-- C6: one drain cycle deletes every record whose replay succeeds, keeps
exactly the known-type records whose replay fails, discards unreadable and
unrecognized records, and attempts replay exactly on the known-type records in
order; consequently spooling any batch of known-type records and draining with
an always-succeeding replay leaves zero pending records and replays exactly
the batch, payloads intact. -/
theorem spool_drain_ok : ∀ (replayOk : SpoolRec → Bool) (recs : List SpoolRec),
    drainCycle replayOk recs =
      (recs.filter (fun r => knownType r && !replayOk r), recs.filter knownType) ∧
    ((∀ r ∈ recs, knownType r = true) →
      drainCycle (fun _ => true) (recs.foldl (spoolWrite true) []) = ([], recs)) := by
  have hchar : ∀ (f : SpoolRec → Bool) (recs : List SpoolRec),
      drainCycle f recs =
        (recs.filter (fun r => knownType r && !f r), recs.filter knownType) := by
    intro f recs
    induction recs with
    | nil => rfl
    | cons r rest ih =>
      simp only [drainCycle, ih, List.filter_cons]
      by_cases hk : knownType r = true
      · by_cases ho : f r = true
        · simp [hk, ho]
        · simp only [Bool.not_eq_true] at ho
          simp [hk, ho]
      · simp only [Bool.not_eq_true] at hk
        simp [hk]
  have hfold : ∀ (recs acc : List SpoolRec),
      recs.foldl (spoolWrite true) acc = acc ++ recs := by
    intro recs
    induction recs with
    | nil => intro acc; simp
    | cons r rest ih =>
      intro acc
      simp only [List.foldl_cons, spoolWrite, if_pos rfl, ih]
      simp
  intro replayOk recs
  refine ⟨hchar replayOk recs, ?_⟩
  intro hall
  rw [hfold recs [], List.nil_append, hchar]
  have h1 : recs.filter (fun r => knownType r && !(fun _ : SpoolRec => true) r) = [] := by
    rw [List.filter_eq_nil_iff]
    intro r hr
    simp [hall r hr]
  have h2 : recs.filter knownType = recs := by
    rw [List.filter_eq_self]
    exact hall
  rw [h1, h2]

/-- Witness for C6: a concrete mixed batch of the three known record types,
spooled then drained with an always-succeeding replay, leaves nothing pending
and is replayed in full. -/
theorem spool_drain_ok_witness :
    drainCycle (fun _ => true)
        ([SpoolRec.ingest payloadCx, SpoolRec.evalLog "eval-row",
          SpoolRec.auditLog "audit-row"].foldl (spoolWrite true) []) =
      ([], [SpoolRec.ingest payloadCx, SpoolRec.evalLog "eval-row",
          SpoolRec.auditLog "audit-row"]) :=
  (spool_drain_ok (fun _ => true) _).2 (by decide)

/-- Counterexample for C9 as stated: a model-output vector one component too
long is silently truncated (not rejected), and one too short is silently
zero-padded. -/
theorem embed_dim_cx :
    adjustRow 2 [1, 2, 3] = [1, 2] ∧
    adjustRow 3 [1, 2] = [1, 2, 0] ∧
    adjustRow 2 [1, 2, 3] ≠ [1, 2, 3] := by
  refine ⟨by decide, by decide, by decide⟩

/-- C9 (amended): every vector emitted by the ingestion path's dimension
adjustment has exactly the configured dimension D, obtained by silently
truncating or zero-padding model outputs of a different dimension; only a
mismatch between the database column dimension and the configured dimension is
rejected, with the RuntimeError raised by schema setup. -/
theorem embed_dim_amended (target : Nat) (vecs : List (List ℚ)) (row : List ℚ)
    (dbDim desired : Nat) (hne : dbDim ≠ desired) :
    (∀ v ∈ embedAdjust target vecs, v.length = target) ∧
    adjustRow target row = row.take target ++ List.replicate (target - row.length) 0 ∧
    ensure_core_vector_schema_dim (some dbDim) desired =
      Except.error "EMBED_DIM mismatch" := by
  refine ⟨?_, ?_, ?_⟩
  · intro v hv
    rcases List.mem_map.1 hv with ⟨w, _, hw⟩
    rw [← hw]
    unfold adjustRow
    by_cases h1 : w.length = target
    · rw [if_pos h1]
      exact h1
    · rw [if_neg h1]
      by_cases h2 : target < w.length
      · rw [if_pos h2]
        rw [List.length_take]
        omega
      · rw [if_neg h2]
        rw [List.length_append, List.length_replicate]
        omega
  · unfold adjustRow
    by_cases h1 : row.length = target
    · rw [if_pos h1, ← h1, List.take_length, Nat.sub_self, List.replicate_zero,
        List.append_nil]
    · rw [if_neg h1]
      by_cases h2 : target < row.length
      · rw [if_pos h2, Nat.sub_eq_zero_of_le (Nat.le_of_lt h2),
          List.replicate_zero, List.append_nil]
      · rw [if_neg h2, List.take_of_length_le (by omega)]
  · simp [ensure_core_vector_schema_dim, hne]

/-- Witness for C9 (amended): a database column of dimension 3 against a
configured dimension 2 is rejected by schema setup. -/
theorem embed_dim_amended_witness :
    ensure_core_vector_schema_dim (some 3) 2 = Except.error "EMBED_DIM mismatch" :=
  (embed_dim_amended 2 [] [] 3 2 (by decide)).2.2

/-- C10: the spool writer never raises — on an unwritable spool directory the
exception is caught and only logged, the record is dropped, and a chunk-upsert
failure whose spool write also fails still reports success to the caller, so
that write is silently lost. -/
theorem spool_writer_silent : ∀ (spool : List SpoolRec) (r : SpoolRec)
    (st : Storage) (p : IngestPayload),
    spoolWrite false spool r = spool ∧
    spoolWrite true spool r = spool ++ [r] ∧
    (st.docOk = true → st.chunkOk = false → st.spoolWritable = false →
      ingestRun st p = (HandlerOutcome.success, [])) := by
  intro spool r st p
  refine ⟨rfl, rfl, ?_⟩
  intro hd hc hw
  simp [ingestRun, spoolWrite, hd, hc, hw]

/-- Witness for C10: a concrete chunk-upsert failure with an unwritable spool
directory reports success while persisting nothing. -/
theorem spool_writer_silent_witness :
    ingestRun stChunkFailNoSpool payloadCx = (HandlerOutcome.success, []) :=
  (spool_writer_silent [] (SpoolRec.evalLog "r") stChunkFailNoSpool payloadCx).2.2
    rfl rfl rfl

end DocPilot
